import Mathlib

/-!
Verification of the method-dispatch / compiled-code core of the Rubinius VM.

The definitions below are a shallow embedding of `CompiledCode`
(vm/builtin/compiled_code.cpp, included in src/vm/builtin/method_table.hpp)
and of the `MethodTable` described by the header in the same file.
Machine integers (class ids, serials, symbols) are modelled as `Nat`;
executor function pointers are modelled by the inductive `Exec` whose
`nullE` constructor stands for the null pointer.  Stateful methods are
modelled as pure functions returning the updated object.
-/

namespace Rubinius

/-- Executor function pointers.  `nullE` is the null pointer (`0` in the
C++ comparisons); `defaultE` is `CompiledCode::default_executor`;
`specializedE` is `CompiledCode::specialized_executor`; `interpE` is the
generic interpreter entry installed by `setup_argument_handler`; `primE`
is a resolved primitive executor; `jit n` is an arbitrary JIT-produced
executor. -/
inductive Exec where
  | nullE
  | defaultE
  | specializedE
  | interpE
  | primE
  | jit (n : Nat)
deriving DecidableEq

/-- One slot of the specialization cache: `class_data` is the union of
`class_id` and `serial_id` (its `raw` view is the pair of the two), with
the cached executor and its JIT runtime data. -/
structure SpecSlot where
  class_id : Nat
  serial_id : Nat
  execute : Exec
  jit_data : Option Nat
deriving DecidableEq

/-- An empty specialization slot: `class_data.raw == 0` and no executor. -/
def emptySlot : SpecSlot := ⟨0, 0, Exec.nullE, none⟩

/-- Modelled from the spec: `MachineCode::cMaxSpecializations`, the fixed
number of specialization-cache slots (the constant itself is declared in
machine_code.hpp, which is not part of the sources; the spec gives 8 as
the example size). -/
def cMaxSpecializations : Nat := 8

/-- The interpreter variant stored in `MachineCode::run`:
`MachineCode::interpreter` or `MachineCode::debugger_interpreter`. -/
inductive InterpVariant where
  | normal
  | debugging
deriving DecidableEq

/-- `MachineCode` execute status (`set_execute_status`); only `eJIT` is
relevant to the covered operations. -/
inductive ExecuteStatus where
  | eInterpret
  | eJIT
deriving DecidableEq

/-- The internal form of a compiled-code object.  `validIps` models the
set of valid instruction boundaries consulted by `validate_ip`. -/
structure MachineCode where
  fallback : Exec
  unspecialized : Exec
  specializations : List SpecSlot
  execute_status : ExecuteStatus
  debugging : Bool
  run : InterpVariant
  validIps : List Nat
deriving DecidableEq

/-- The compiled-code object.  Metadata fields are opaque `Nat`s; `lines`
is the alternating `[ip0, line0, ip1, line1, ...]` tuple (absent = nil);
`breakpoints` is the optional LookupTable from ip to user data;
`bytecodeValid` abstracts whether the bytecode body passes the external
bytecode verifier; `ipBounds` abstracts the valid instruction boundaries
of the bytecode (consulted by `validate_ip` once internalized). -/
structure CompiledCode where
  name : Nat
  file : Nat
  literals : List Nat
  lines : Option (List Int)
  local_count : Nat
  local_names : List Nat
  required_args : Nat
  total_args : Nat
  splat : Option Nat
  stack_size : Nat
  scope : Nat
  primitive : Option Nat
  breakpoints : Option (List (Nat × Nat))
  machine_code : Option MachineCode
  execute : Exec
  bytecodeValid : Bool
  ipBounds : List Nat
deriving DecidableEq

/-- Modelled from the spec: the machine-code builder
`MachineCode::new(code)` (machine_code.cpp is not part of the sources).
It constructs the interpretable internal form with an all-empty
specialization cache, the normal interpreter variant, debugging off and
no unspecialized executor; the fallback is filled in by `internalize`. -/
def MachineCode.new (c : CompiledCode) : MachineCode :=
  { fallback := Exec.interpE
    unspecialized := Exec.nullE
    specializations := List.replicate cMaxSpecializations emptySlot
    execute_status := ExecuteStatus.eInterpret
    debugging := false
    run := InterpVariant.normal
    validIps := c.ipBounds }

/-- Modelled from the spec: the primitive resolver
`Executable::resolve_primitive` (not part of the sources) attempts to
bind `code.primitive` to a fast-path executor; it succeeds exactly when
a primitive is recorded. -/
def resolve_primitive (c : CompiledCode) : Bool := c.primitive.isSome

/-- `CompiledCode::internalize`.  Returns the machine code (`none` when
the bytecode verifier rejects the body, in which case nothing is
mutated), the updated object, and how many times the bytecode verifier
was invoked during this call (the ghost count used to state the
at-most-once property). -/
def CompiledCode.internalize (c : CompiledCode) : Option MachineCode × CompiledCode × Nat :=
  match c.machine_code with
  | some m => (some m, c, 0)
  | none =>
    if c.bytecodeValid then
      let m0 := MachineCode.new c
      let m := { m0 with fallback := if resolve_primitive c then Exec.primE else Exec.interpE }
      (some m, { c with machine_code := some m, execute := m.fallback }, 1)
    else
      (none, c, 1)

/-- Iterate `internalize` `n` times, accumulating the total number of
bytecode-verifier invocations. -/
def internalizeN (c : CompiledCode) : Nat → CompiledCode × Nat
  | 0 => (c, 0)
  | n + 1 =>
    let r := c.internalize
    let rest := internalizeN r.2.1 n
    (rest.1, r.2.2 + rest.2)

/-- `CompiledCode::dup`: allocate a fresh object, `copy_object` all
fields from `this`, then reset the executor to `default_executor` and
null out `machine_code`. -/
def CompiledCode.dup (c : CompiledCode) : CompiledCode :=
  { c with execute := Exec.defaultE, machine_code := none }

/-- Flatten a list of `(start_ip, line)` pairs into the alternating
encoding `[ip0, line0, ip1, line1, ...]` used by the `lines` tuple. -/
def flattenPairs : List (Int × Int) → List Int
  | [] => []
  | (a, b) :: rest => a :: b :: flattenPairs rest

/-- The scan loop of `CompiledCode::line(int ip)`: while at least one
adjacent pair `(l[i], l[i+2])` remains (`i < num_fields - 2`), return
`l[i+1]` for the first pair with `l[i] <= ip < l[i+2]`; otherwise return
`l[fin+1]`, the last element of the tuple. -/
def lineLoop : List Int → Int → Int
  | a :: b :: c :: rest, ip =>
    if a ≤ ip ∧ ip < c then b else lineLoop (c :: rest) ip
  | l, _ => l.getLastD 0

/-- `CompiledCode::line(int ip)`: `-3` when the lines tuple is nil, else
the pair scan over the alternating tuple. -/
def CompiledCode.line (c : CompiledCode) (ip : Int) : Int :=
  match c.lines with
  | none => -3
  | some l => lineLoop l ip

/-- Definition following the spec sentence for `line(ip)` (used to state
the claims, not taken from the source): the line of the first adjacent
pair `(start_ip_i, line_i), (start_ip_j, _)` with
`start_ip_i <= ip < start_ip_j`, or `none` when no adjacent pair
brackets `ip`. -/
def firstBracket : List (Int × Int) → Int → Option Int
  | (a, b) :: (c, d) :: rest, ip =>
    if a ≤ ip ∧ ip < c then some b else firstBracket ((c, d) :: rest) ip
  | _, _ => none

/-- Modelled from the spec: `LookupTable::store` (lookup_table.cpp is not
part of the sources) binds a key to a value, replacing an existing
binding for the same key. -/
def lkStore (l : List (Nat × Nat)) (k v : Nat) : List (Nat × Nat) :=
  if l.any (fun p => p.1 == k) then l.map (fun p => if p.1 == k then (k, v) else p)
  else (k, v) :: l

/-- Modelled from the spec: `LookupTable::remove` deletes the binding of
a key (reporting whether one was present via `List.any` at call sites). -/
def lkRemove (l : List (Nat × Nat)) (k : Nat) : List (Nat × Nat) :=
  l.filter (fun p => p.1 != k)

/-- Modelled from the spec: `LookupTable::fetch` finds the binding of a
key. -/
def lkFetch (l : List (Nat × Nat)) (k : Nat) : Option Nat :=
  (l.find? (fun p => p.1 == k)).map (fun p => p.2)

/-- Result of the breakpoint primitives: `Primitives::failure()`, the ip
handed back (`return ip`), or a boolean (`RBOOL`/`cFalse`). -/
inductive BpResult where
  | failure
  | retIp (ip : Nat)
  | retBool (b : Bool)
deriving DecidableEq

/-- Modelled from the spec: `MachineCode::validate_ip` (machine_code.cpp
is not part of the sources) checks that `ip` is a valid instruction
boundary of the bytecode. -/
def validate_ip (v : MachineCode) (ip : Nat) : Bool := v.validIps.contains ip

/-- `CompiledCode::set_breakpoint`: internalize if needed (failure
sentinel when the verifier rejects), validate the ip (failure sentinel
when invalid), create the breakpoint table if nil, store `(ip, bp)`, set
`debugging = 1`, switch to the debugger interpreter and return the ip. -/
def CompiledCode.set_breakpoint (c : CompiledCode) (ip bp : Nat) : BpResult × CompiledCode :=
  match c.machine_code with
  | none =>
    match c.internalize with
    | (none, c', _) => (BpResult.failure, c')
    | (some v, c', _) =>
      if validate_ip v ip then
        (BpResult.retIp ip,
         { c' with breakpoints := some (lkStore (c'.breakpoints.getD []) ip bp),
                   machine_code := some { v with debugging := true,
                                                 run := InterpVariant.debugging } })
      else (BpResult.failure, c')
  | some v =>
    if validate_ip v ip then
      (BpResult.retIp ip,
       { c with breakpoints := some (lkStore (c.breakpoints.getD []) ip bp),
                machine_code := some { v with debugging := true,
                                              run := InterpVariant.debugging } })
    else (BpResult.failure, c)

/-- `CompiledCode::clear_breakpoint`: return the ip unchanged when not
internalized; failure sentinel on an invalid ip; otherwise remove the
binding and, when the table becomes empty, clear `debugging` and restore
the normal interpreter; returns whether a binding was removed. -/
def CompiledCode.clear_breakpoint (c : CompiledCode) (ip : Nat) : BpResult × CompiledCode :=
  match c.machine_code with
  | none => (BpResult.retIp ip, c)
  | some v =>
    if validate_ip v ip then
      match c.breakpoints with
      | none => (BpResult.retBool false, c)
      | some bps =>
        let removed := bps.any (fun p => p.1 == ip)
        let bps' := lkRemove bps ip
        if bps'.length = 0 then
          (BpResult.retBool removed,
           { c with breakpoints := some bps',
                    machine_code := some { v with debugging := false,
                                                  run := InterpVariant.normal } })
        else
          (BpResult.retBool removed, { c with breakpoints := some bps' })
    else (BpResult.failure, c)

/-- `CompiledCode::is_breakpoint`: false when not internalized; failure
sentinel on an invalid ip; false when the breakpoint table is nil; else
whether the ip is bound. -/
def CompiledCode.is_breakpoint (c : CompiledCode) (ip : Nat) : BpResult :=
  match c.machine_code with
  | none => BpResult.retBool false
  | some v =>
    if validate_ip v ip then
      match c.breakpoints with
      | none => BpResult.retBool false
      | some bps => BpResult.retBool (lkFetch bps ip).isSome
    else BpResult.failure

/-- `CompiledCode::call_sites`: internalize if needed; on verifier
failure return the failure sentinel (`none`) leaving the object
untouched; the tuple payload itself lives in the external
`MachineCode::call_sites` and is abstracted to `Unit`. -/
def CompiledCode.call_sites (c : CompiledCode) : Option Unit × CompiledCode :=
  match c.machine_code with
  | some _ => (some (), c)
  | none =>
    match c.internalize with
    | (some _, c', _) => (some (), c')
    | (none, c', _) => (none, c')

/-- `CompiledCode::constant_caches`: same shape as `call_sites`. -/
def CompiledCode.constant_caches (c : CompiledCode) : Option Unit × CompiledCode :=
  match c.machine_code with
  | some _ => (some (), c)
  | none =>
    match c.internalize with
    | (some _, c', _) => (some (), c')
    | (none, c', _) => (none, c')

/-- The cache scan shared by `specialized_executor` and
`primitive_failed`: the first slot whose `class_data.raw` equals the
receiver's class data and whose executor is non-null. -/
def findSpecExec : List SpecSlot → Nat × Nat → Option Exec
  | [], _ => none
  | s :: rest, cd =>
    if (s.class_id, s.serial_id) = cd ∧ s.execute ≠ Exec.nullE then some s.execute
    else findSpecExec rest cd

/-- The executor selected by `CompiledCode::specialized_executor` on a
machine code for a receiver with the given class data: the matching
cache entry, else `unspecialized`, else (when that is null) `fallback`. -/
def specTarget (v : MachineCode) (cd : Nat × Nat) : Exec :=
  let t := (findSpecExec v.specializations cd).getD v.unspecialized
  if t = Exec.nullE then v.fallback else t

/-- `CompiledCode::specialized_executor` at the object level: requires
the machine code (the C++ dereferences it unconditionally). -/
def CompiledCode.specialized_executor (c : CompiledCode) (cd : Nat × Nat) : Option Exec :=
  c.machine_code.map (fun v => specTarget v cd)

/-- The placement scan of `CompiledCode::add_specialized`: find the
first slot whose `class_id` is 0 or equals the given `class_id` and
overwrite it; `none` when every slot fails the test (cache full). -/
def installSpec : List SpecSlot → Nat → Nat → Exec → Option Nat → Option (List SpecSlot)
  | [], _, _, _, _ => none
  | s :: rest, cid, sid, e, rd =>
    if s.class_id = 0 ∨ s.class_id = cid then some (⟨cid, sid, e, rd⟩ :: rest)
    else (installSpec rest cid sid e rd).map (fun l => s :: l)

/-- The log messages `add_specialized` can emit: `logger::error` when
there is no machine code, `logger::warn` when the cache is full. -/
inductive SpecLog where
  | noBackend
  | cacheFull
deriving DecidableEq

/-- Slot update of `add_specialized`: install at the first matching slot,
or overwrite slot 0 (with a warning flag) when the cache is full. -/
def addSlots (slots : List SpecSlot) (cid sid : Nat) (e : Exec) (rd : Option Nat) :
    List SpecSlot × Bool :=
  match installSpec slots cid sid e rd with
  | some l => (l, false)
  | none => (slots.set 0 ⟨cid, sid, e, rd⟩, true)

/-- `CompiledCode::add_specialized`: log an error and change nothing
when there is no machine code; otherwise install the specialization,
mark the machine code `eJIT` and, when no primitive is recorded, set the
top-level executor to `specialized_executor`.  The second component is
the log message emitted, if any. -/
def CompiledCode.add_specialized (c : CompiledCode) (cid sid : Nat) (e : Exec)
    (rd : Option Nat) : CompiledCode × Option SpecLog :=
  match c.machine_code with
  | none => (c, some SpecLog.noBackend)
  | some v =>
    let r := addSlots v.specializations cid sid e rd
    let v' := { v with specializations := r.1, execute_status := ExecuteStatus.eJIT }
    let c' := { c with machine_code := some v',
                       execute := if c.primitive = none then Exec.specializedE else c.execute }
    (c', if r.2 then some SpecLog.cacheFull else none)

/-- `CompiledCode::can_specialize_p`: some cache slot has
`class_data.raw == 0`.  (The C++ aborts via `rubinius::bug` when there
is no machine code; that case is excluded by the theorems below.) -/
def CompiledCode.can_specialize_p (c : CompiledCode) : Bool :=
  match c.machine_code with
  | none => false
  | some v => v.specializations.any (fun s => s.class_id == 0 && s.serial_id == 0)

/-- Modelled from the spec: a method-table bucket (the bucket record of
method_table.hpp; method_table.cpp is not part of the sources).  The
`next` chain link is represented by the position in the chain list. -/
structure MethodTableBucket where
  name : Nat
  method_id : Nat
  method : Nat
  scope : Nat
  serial : Nat
  visibility : Nat
deriving DecidableEq

/-- Modelled from the spec: the method table: `bins` bins, an ordered
sequence `values` of length `bins` of bucket chains, and the live-bucket
count `entries`. -/
structure MethodTable where
  bins : Nat
  values : List (List MethodTableBucket)
  entries : Nat
deriving DecidableEq

/-- All buckets of the table, in chain order. -/
def MethodTable.allBuckets (t : MethodTable) : List MethodTableBucket := t.values.flatten

/-- The names of all buckets of the table. -/
def MethodTable.allNames (t : MethodTable) : List Nat := t.allBuckets.map (fun b => b.name)

/-- Round `n` up to a power of two (`fuel` bounds the halving depth;
`fuel = n` is always enough). -/
def pow2Ge : Nat → Nat → Nat
  | 0, _ => 1
  | fuel + 1, n => if n ≤ 1 then 1 else 2 * pow2Ge fuel ((n + 1) / 2)

/-- Modelled from the spec: `MethodTable::create(size)` allocates
`max(size, 16)` bins rounded up to a power of two, all empty. -/
def MethodTable.create (sz : Nat) : MethodTable :=
  { bins := pow2Ge (max sz 16) (max sz 16)
    values := List.replicate (pow2Ge (max sz 16) (max sz 16)) []
    entries := 0 }

/-- Modelled from the spec: `MethodTable::lookup` hashes the name (the
hash is the symbol itself; the bin index is the hash masked by
`bins - 1`, i.e. mod `bins` since `bins` is a power of two) and walks
the chain comparing symbol identities. -/
def MethodTable.lookup (t : MethodTable) (n : Nat) : Option MethodTableBucket :=
  (t.values.getD (n % t.bins) []).find? (fun b => b.name == n)

/-- One step of redistribution: prepend a bucket to its bin in the new
array. -/
def insertB (nb : Nat) (vs : List (List MethodTableBucket)) (b : MethodTableBucket) :
    List (List MethodTableBucket) :=
  vs.set (b.name % nb) (b :: vs.getD (b.name % nb) [])

/-- Rehash a flat list of buckets into `nb` fresh bins. -/
def rebuild (nb : Nat) (l : List MethodTableBucket) : List (List MethodTableBucket) :=
  l.foldl (insertB nb) (List.replicate nb [])

/-- Modelled from the spec: resize doubles the bin count and rehashes
every bucket into the new array; `entries` is unchanged. -/
def MethodTable.resize (t : MethodTable) : MethodTable :=
  { bins := 2 * t.bins, values := rebuild (2 * t.bins) t.allBuckets, entries := t.entries }

/-- Overwrite in place the fields of the (first) bucket with the given
name. -/
def overwriteChain (n mid m sc se vi : Nat) :
    List MethodTableBucket → List MethodTableBucket
  | [] => []
  | b :: rest =>
    if b.name = n then ⟨n, mid, m, sc, se, vi⟩ :: rest
    else b :: overwriteChain n mid m sc se vi rest

/-- Modelled from the spec: `MethodTable::store(name, method_id, method,
scope, serial, visibility)`: locate the bin; overwrite an existing
bucket with the same name in place; else prepend a fresh bucket and
increment `entries`; resize when `entries` reaches `bins`. -/
def MethodTable.store (t : MethodTable) (n mid m sc se vi : Nat) : MethodTable :=
  let i := n % t.bins
  let chain := t.values.getD i []
  if chain.any (fun b => b.name == n) then
    { t with values := t.values.set i (overwriteChain n mid m sc se vi chain) }
  else
    let t' : MethodTable :=
      { bins := t.bins
        values := t.values.set i (⟨n, mid, m, sc, se, vi⟩ :: chain)
        entries := t.entries + 1 }
    if t'.entries = t'.bins then t'.resize else t'

/-- Unlink the (first) bucket with the given name from a chain. -/
def removeChain (n : Nat) : List MethodTableBucket → List MethodTableBucket
  | [] => []
  | b :: rest => if b.name = n then rest else b :: removeChain n rest

/-- Modelled from the spec: `MethodTable::remove(name)`: locate and
unlink the bucket, decrement `entries`, and return the prior method
slot; absent when the name is not present. -/
def MethodTable.remove (t : MethodTable) (n : Nat) : Option Nat × MethodTable :=
  let i := n % t.bins
  let chain := t.values.getD i []
  match chain.find? (fun b => b.name == n) with
  | some b =>
    (some b.method,
     { t with values := t.values.set i (removeChain n chain), entries := t.entries - 1 })
  | none => (none, t)

/-- Fold a sequence of `store` calls (name, method_id, method, scope,
serial, visibility) over a table. -/
def storeSeq (t : MethodTable) (args : List (Nat × Nat × Nat × Nat × Nat × Nat)) :
    MethodTable :=
  args.foldl (fun t a => t.store a.1 a.2.1 a.2.2.1 a.2.2.2.1 a.2.2.2.2.1 a.2.2.2.2.2) t

/-- Structural well-formedness of a method table: positive bin count,
`values` of length `bins`, every bucket stored in the bin its name
hashes to, names unique across the table, and `entries` equal to the
number of reachable buckets. -/
def MethodTable.WF (t : MethodTable) : Prop :=
  0 < t.bins ∧ t.values.length = t.bins ∧
  (∀ i < t.values.length, ∀ b ∈ t.values.getD i [], b.name % t.bins = i) ∧
  t.allNames.Nodup ∧ t.entries = t.allBuckets.length

instance (t : MethodTable) : Decidable t.WF := by
  unfold MethodTable.WF
  infer_instance

/-- A concrete compiled-code object with a valid bytecode body, used by
the witnesses. -/
def sampleCode : CompiledCode :=
  { name := 1, file := 2, literals := [7], lines := some [0, 10, 4, 20, 8, 30]
    local_count := 1, local_names := [3], required_args := 0, total_args := 0
    splat := none, stack_size := 2, scope := 5, primitive := none
    breakpoints := none, machine_code := none, execute := Exec.defaultE
    bytecodeValid := true, ipBounds := [0, 2, 4, 6, 8] }

/-- `sampleCode` after internalization. -/
def sampleInt : CompiledCode := sampleCode.internalize.2.1

/-- A concrete compiled-code object whose bytecode fails verification. -/
def badCode : CompiledCode :=
  { name := 4, file := 2, literals := [], lines := none
    local_count := 0, local_names := [], required_args := 0, total_args := 0
    splat := none, stack_size := 1, scope := 0, primitive := none
    breakpoints := none, machine_code := none, execute := Exec.defaultE
    bytecodeValid := false, ipBounds := [0] }

/-- A concrete internalized code whose specialization cache holds a slot
with `class_id = 0` but `serial_id = 9` (installable by
`add_specialized(0, 9, ...)` once the other slots are taken), and seven
slots with non-zero class ids. -/
def fullCacheMC : MachineCode :=
  { MachineCode.new sampleCode with
      specializations :=
        [⟨1, 1, Exec.jit 1, none⟩, ⟨2, 1, Exec.jit 2, none⟩,
         ⟨3, 1, Exec.jit 3, none⟩, ⟨4, 1, Exec.jit 4, none⟩,
         ⟨5, 1, Exec.jit 5, none⟩, ⟨6, 1, Exec.jit 6, none⟩,
         ⟨7, 1, Exec.jit 7, none⟩, ⟨0, 9, Exec.nullE, none⟩] }

/-- The full-cache code object itself. -/
def fullCacheCode : CompiledCode :=
  { sampleInt with machine_code := some fullCacheMC }

/-!  Helper lemmas. -/

theorem internalize_of_some (c : CompiledCode) (m : MachineCode)
    (h : c.machine_code = some m) : c.internalize = (some m, c, 0) := by
  unfold CompiledCode.internalize
  rw [h]

theorem internalizeN_of_some (c : CompiledCode) (m : MachineCode)
    (h : c.machine_code = some m) : ∀ n, internalizeN c n = (c, 0) := by
  intro n
  induction n with
  | zero => rfl
  | succ n ih =>
    unfold internalizeN
    rw [internalize_of_some c m h]
    simpa using ih

theorem internalize_of_none_valid (c : CompiledCode)
    (hmc : c.machine_code = none) (h : c.bytecodeValid = true) :
    ∃ m, c.internalize = (some m, { c with machine_code := some m, execute := m.fallback }, 1) := by
  unfold CompiledCode.internalize
  rw [hmc]
  simp [h]

theorem internalize_machine_code (c : CompiledCode) (h : c.bytecodeValid = true) :
    ∃ m, c.internalize.1 = some m ∧ c.internalize.2.1.machine_code = some m := by
  cases hmc : c.machine_code with
  | some m => rw [internalize_of_some c m hmc]; exact ⟨m, rfl, hmc⟩
  | none =>
    obtain ⟨m, hm⟩ := internalize_of_none_valid c hmc h
    rw [hm]
    exact ⟨m, rfl, rfl⟩

/-!  C1: one-time, idempotent internalization. -/

/-- C1: for a compiled-code object whose bytecode passes verification,
once `internalize` has succeeded, every later call returns the very
machine code stored in `machine_code` without touching the state and
without invoking the bytecode verifier again; across any sequence of
`internalize` calls the verifier runs at most once. -/
theorem c1_internalize_once (c : CompiledCode) (h : c.bytecodeValid = true) :
    (∀ m c' k, c.internalize = (some m, c', k) →
        c'.machine_code = some m ∧ c'.internalize = (some m, c', 0)) ∧
    (∀ n, (internalizeN c n).2 ≤ 1) := by
  constructor
  · intro m c' k hr
    cases hmc : c.machine_code with
    | some m0 =>
      rw [internalize_of_some c m0 hmc] at hr
      obtain ⟨rfl, rfl, rfl⟩ : m0 = m ∧ c = c' ∧ 0 = k := by
        simpa using congrArg (fun r => (r.1, r.2.1, r.2.2)) hr
      exact ⟨hmc, internalize_of_some c m0 hmc⟩
    | none =>
      obtain ⟨m1, hm⟩ := internalize_of_none_valid c hmc h
      rw [hm] at hr
      obtain ⟨rfl, rfl, rfl⟩ :
          m1 = m ∧ { c with machine_code := some m1, execute := m1.fallback } = c' ∧ 1 = k := by
        simpa using congrArg (fun r => (r.1, r.2.1, r.2.2)) hr
      exact ⟨rfl, internalize_of_some _ m1 rfl⟩
  · intro n
    cases n with
    | zero => simp [internalizeN]
    | succ n =>
      cases hmc : c.machine_code with
      | some m =>
        simp [internalizeN_of_some c m hmc (n + 1)]
      | none =>
        obtain ⟨m, hm⟩ := internalize_of_none_valid c hmc h
        unfold internalizeN
        rw [hm]
        simpa using
          le_of_eq (congrArg Prod.snd (internalizeN_of_some _ m rfl n))

/-- Witness for C1 at the concrete `sampleCode`. -/
theorem c1_internalize_once_witness :
    sampleCode.bytecodeValid = true ∧ (internalizeN sampleCode 3).2 ≤ 1 :=
  ⟨rfl, (c1_internalize_once sampleCode rfl).2 3⟩

/-!  C3 and C10: line lookup. -/

theorem lineLoop_flatten (ip : Int) :
    ∀ P : List (Int × Int), P ≠ [] →
      lineLoop (flattenPairs P) ip = (firstBracket P ip).getD (P.getLast?.getD (0, 0)).2
  | [], h => absurd rfl h
  | [(a, b)], _ => by
    simp [flattenPairs, lineLoop, firstBracket]
  | (a, b) :: (cc, d) :: rest, _ => by
    have ih := lineLoop_flatten ip ((cc, d) :: rest) (by simp)
    by_cases hb : a ≤ ip ∧ ip < cc
    · simp [flattenPairs, lineLoop, firstBracket, hb]
    · simp only [flattenPairs, lineLoop, firstBracket, hb, if_false,
        List.getLast?_cons_cons] at ih ⊢
      exact ih

/-- C3: with a present lines map `[ip0, line0, ip1, line1, ...]`,
`line(ip)` returns the line of the first adjacent pair bracketing `ip`
(`start_ip_i <= ip < start_ip_{i+1}`), the last recorded line when no
pair brackets `ip`, and the sentinel `-3` when the map is absent. -/
theorem c3_line_lookup (c : CompiledCode) (P : List (Int × Int)) (ip : Int)
    (hne : P ≠ []) (hl : c.lines = some (flattenPairs P)) :
    c.line ip = (firstBracket P ip).getD (P.getLast?.getD (0, 0)).2 ∧
    ∀ c' : CompiledCode, c'.lines = none → c'.line ip = -3 := by
  constructor
  · unfold CompiledCode.line
    rw [hl]
    exact lineLoop_flatten ip P hne
  · intro c' h'
    unfold CompiledCode.line
    rw [h']

/-- Witness for C3 at the concrete `sampleCode` lines map
`[(0,10),(4,20),(8,30)]` and ip 5. -/
theorem c3_line_lookup_witness :
    CompiledCode.line sampleCode 5 = 20 ∧ CompiledCode.line badCode 5 = -3 := by
  have h := c3_line_lookup sampleCode [(0, 10), (4, 20), (8, 30)] 5 (by decide) rfl
  refine ⟨?_, h.2 badCode rfl⟩
  rw [h.1]
  decide

theorem firstBracket_eq_none (ip : Int) :
    ∀ P : List (Int × Int), (P.map Prod.fst).Chain' (· ≤ ·) →
      ip < (P.headD (0, 0)).1 → firstBracket P ip = none
  | [], _, _ => rfl
  | [(a, b)], _, _ => rfl
  | (a, b) :: (cc, d) :: rest, hch, hip => by
    have hac : a ≤ cc ∧ List.Chain' (· ≤ ·) (cc :: List.map Prod.fst rest) := by
      simpa [List.chain'_cons] using hch
    have hipa : ip < a := by simpa using hip
    have hipc : ip < cc := lt_of_lt_of_le hipa hac.1
    have ih := firstBracket_eq_none ip ((cc, d) :: rest) (by simpa using hac.2)
      (by simpa using hipc)
    have hb : ¬ (a ≤ ip ∧ ip < cc) := fun hh => absurd hipa (not_lt.mpr hh.1)
    simp [firstBracket, hb, ih]

/-- C10: with a present, ascending lines map, an `ip` strictly below the
first recorded start ip falls through the whole pair scan, so `line(ip)`
returns the last recorded line of the map, not the first one. -/
theorem c10_line_before_first (c : CompiledCode) (P : List (Int × Int)) (ip : Int)
    (hne : P ≠ []) (hl : c.lines = some (flattenPairs P))
    (hsorted : (P.map Prod.fst).Chain' (· ≤ ·))
    (hip : ip < (P.headD (0, 0)).1) :
    c.line ip = (P.getLast?.getD (0, 0)).2 := by
  unfold CompiledCode.line
  rw [hl]
  show lineLoop (flattenPairs P) ip = _
  rw [lineLoop_flatten ip P hne, firstBracket_eq_none ip P hsorted hip]
  rfl

/-- Witness for C10: `sampleCode` at ip -5 yields the last line 30. -/
theorem c10_line_before_first_witness : CompiledCode.line sampleCode (-5) = 30 := by
  have h := c10_line_before_first sampleCode [(0, 10), (4, 20), (8, 30)] (-5)
    (by decide) rfl (by norm_num [List.chain'_cons]) (by decide)
  rw [h]
  decide

/-!  C7: duplication. -/

/-- C7: `dup` produces a shallow field copy of the object whose executor
is reset to the default executor and whose machine code is absent; being
a pure function of its argument, it leaves the original unchanged. -/
theorem c7_dup_resets (c : CompiledCode) :
    c.dup.name = c.name ∧ c.dup.file = c.file ∧ c.dup.literals = c.literals ∧
    c.dup.lines = c.lines ∧ c.dup.local_count = c.local_count ∧
    c.dup.local_names = c.local_names ∧ c.dup.required_args = c.required_args ∧
    c.dup.total_args = c.total_args ∧ c.dup.splat = c.splat ∧
    c.dup.stack_size = c.stack_size ∧ c.dup.scope = c.scope ∧
    c.dup.primitive = c.primitive ∧ c.dup.breakpoints = c.breakpoints ∧
    c.dup.bytecodeValid = c.bytecodeValid ∧ c.dup.ipBounds = c.ipBounds ∧
    c.dup.execute = Exec.defaultE ∧ c.dup.machine_code = none :=
  ⟨rfl, rfl, rfl, rfl, rfl, rfl, rfl, rfl, rfl, rfl, rfl, rfl, rfl, rfl, rfl, rfl, rfl⟩

/-!  C5: behavior of the covered operations on a code whose bytecode
fails verification. -/

/-- C5 counterexample: on a code whose bytecode fails verification,
`clear_breakpoint` returns the given ip and `is_breakpoint` returns
false; neither is the failure sentinel, refuting the claim that each of
the five operations returns a failure sentinel. -/
theorem c5_counterexample :
    badCode.bytecodeValid = false ∧ badCode.machine_code = none ∧
    (badCode.clear_breakpoint 0).1 = BpResult.retIp 0 ∧
    badCode.is_breakpoint 0 = BpResult.retBool false ∧
    BpResult.retIp 0 ≠ BpResult.failure ∧
    BpResult.retBool false ≠ BpResult.failure := by decide

/-- C5 amended: on a code whose bytecode fails verification (machine
code absent), `set_breakpoint`, `call_sites` and `constant_caches`
return the failure sentinel, while `clear_breakpoint` returns the given
ip and `is_breakpoint` returns false without attempting internalization;
in every case no state of the code object is mutated. -/
theorem c5_failure_sentinels (c : CompiledCode) (ip bp : Nat)
    (hmc : c.machine_code = none) (hbad : c.bytecodeValid = false) :
    c.set_breakpoint ip bp = (BpResult.failure, c) ∧
    c.clear_breakpoint ip = (BpResult.retIp ip, c) ∧
    c.is_breakpoint ip = BpResult.retBool false ∧
    c.call_sites = (none, c) ∧
    c.constant_caches = (none, c) := by
  have hi : c.internalize = (none, c, 1) := by
    unfold CompiledCode.internalize
    rw [hmc]
    simp [hbad]
  unfold CompiledCode.set_breakpoint CompiledCode.clear_breakpoint
    CompiledCode.is_breakpoint CompiledCode.call_sites CompiledCode.constant_caches
  rw [hmc, hi]
  simp

/-- Witness for the amended C5 at the concrete `badCode`. -/
theorem c5_failure_sentinels_witness :
    badCode.set_breakpoint 0 1 = (BpResult.failure, badCode) ∧
    badCode.clear_breakpoint 0 = (BpResult.retIp 0, badCode) ∧
    badCode.is_breakpoint 0 = BpResult.retBool false ∧
    badCode.call_sites = (none, badCode) ∧
    badCode.constant_caches = (none, badCode) :=
  c5_failure_sentinels badCode 0 1 rfl rfl

/-!  C8: can_specialize_p. -/

/-- C8 counterexample: an internalized code whose cache holds a slot
with `class_id = 0` but `serial_id = 9` (and seven occupied slots)
refutes the claim: some slot has a zero class id, yet `can_specialize_p`
is false because no slot has `class_data.raw == 0`. -/
theorem c8_counterexample :
    fullCacheCode.machine_code = some fullCacheMC ∧
    ¬ (fullCacheCode.can_specialize_p = true ↔
        ∃ s ∈ fullCacheMC.specializations, s.class_id = 0) := by decide

/-- C8 amended: for an internalized code, `can_specialize_p` is true iff
some cache slot is empty, where an empty slot is one whose whole
`class_data.raw` is zero, i.e. whose class id and serial are both
zero. -/
theorem c8_can_specialize (c : CompiledCode) (v : MachineCode)
    (hmc : c.machine_code = some v) :
    c.can_specialize_p = true ↔
      ∃ s ∈ v.specializations, s.class_id = 0 ∧ s.serial_id = 0 := by
  unfold CompiledCode.can_specialize_p
  rw [hmc]
  simp [List.any_eq_true]

/-- Witness for the amended C8 at the freshly internalized `sampleInt`. -/
theorem c8_can_specialize_witness : sampleInt.can_specialize_p = true :=
  (c8_can_specialize sampleInt (MachineCode.new sampleCode) (by decide)).mpr (by decide)

/-!  C2 and C6: specialization registration and dispatch. -/

theorem findSpecExec_installSpec (cid sid : Nat) (e : Exec) (rd : Option Nat)
    (he : e ≠ Exec.nullE) :
    ∀ slots l, installSpec slots cid sid e rd = some l →
      findSpecExec l (cid, sid) = some e
  | [], l, h => by simp [installSpec] at h
  | s :: rest, l, h => by
    by_cases hs : s.class_id = 0 ∨ s.class_id = cid
    · simp only [installSpec, if_pos hs, Option.some_inj] at h
      subst h
      simp [findSpecExec, he]
    · simp only [installSpec, if_neg hs, Option.map_eq_some'] at h
      obtain ⟨l', hl', rfl⟩ := h
      have hneq : s.class_id ≠ cid := fun hh => hs (Or.inr hh)
      have ih := findSpecExec_installSpec cid sid e rd he rest l' hl'
      have hhead : ¬ ((s.class_id, s.serial_id) = (cid, sid) ∧ s.execute ≠ Exec.nullE) := by
        intro hh
        exact hneq (congrArg Prod.fst hh.1)
      simp only [findSpecExec, if_neg hhead]
      exact ih

theorem findSpecExec_setZero (cid sid : Nat) (e : Exec) (rd : Option Nat)
    (he : e ≠ Exec.nullE) (slots : List SpecSlot) (hne : slots ≠ []) :
    findSpecExec (slots.set 0 ⟨cid, sid, e, rd⟩) (cid, sid) = some e := by
  cases slots with
  | nil => exact absurd rfl hne
  | cons s rest => simp [List.set, findSpecExec, he]

theorem findSpecExec_eq_none (cd : Nat × Nat) :
    ∀ slots : List SpecSlot, (∀ s ∈ slots, (s.class_id, s.serial_id) ≠ cd) →
      findSpecExec slots cd = none
  | [], _ => rfl
  | s :: rest, h => by
    have hs : ¬ ((s.class_id, s.serial_id) = cd ∧ s.execute ≠ Exec.nullE) := by
      intro hh
      exact h s (by simp) hh.1
    have ih := findSpecExec_eq_none cd rest (fun x hx => h x (by simp [hx]))
    simp [findSpecExec, hs, ih]

theorem addSlots_findSpecExec (slots : List SpecSlot) (cid sid : Nat) (e : Exec)
    (rd : Option Nat) (he : e ≠ Exec.nullE) (hne : slots ≠ []) :
    findSpecExec (addSlots slots cid sid e rd).1 (cid, sid) = some e := by
  unfold addSlots
  cases hi : installSpec slots cid sid e rd with
  | some l => exact findSpecExec_installSpec cid sid e rd he slots l hi
  | none => exact findSpecExec_setZero cid sid e rd he slots hne

theorem add_specialized_fst (c : CompiledCode) (v : MachineCode) (cid sid : Nat)
    (e : Exec) (rd : Option Nat) (hmc : c.machine_code = some v) :
    (c.add_specialized cid sid e rd).1 =
      { c with machine_code := some { v with
                  specializations := (addSlots v.specializations cid sid e rd).1,
                  execute_status := ExecuteStatus.eJIT },
               execute := if c.primitive = none then Exec.specializedE else c.execute } ∧
    (c.add_specialized cid sid e rd).2 =
      (if (addSlots v.specializations cid sid e rd).2 then some SpecLog.cacheFull
       else none) := by
  unfold CompiledCode.add_specialized
  rw [hmc]
  exact ⟨rfl, rfl⟩

/-- C2: once `add_specialized(cid, s, e, ...)` has registered a non-null
executor `e` on an internalized code, dispatch through
`specialized_executor` with a receiver whose class data is `(cid, s)`
selects `e`; with a receiver matching no cache slot it selects the
unspecialized executor, or the machine code's fallback when the
unspecialized executor is null. -/
theorem c2_specialization_dispatch (c : CompiledCode) (v : MachineCode)
    (cid sid : Nat) (e : Exec) (rd : Option Nat)
    (hmc : c.machine_code = some v)
    (hlen : v.specializations.length = cMaxSpecializations)
    (he : e ≠ Exec.nullE) :
    ((c.add_specialized cid sid e rd).1.specialized_executor (cid, sid) = some e) ∧
    (∀ cd : Nat × Nat, (∀ s ∈ v.specializations, (s.class_id, s.serial_id) ≠ cd) →
        c.specialized_executor cd =
          some (if v.unspecialized = Exec.nullE then v.fallback else v.unspecialized)) := by
  have hne : v.specializations ≠ [] := by
    intro hnil
    rw [hnil] at hlen
    exact absurd hlen.symm (by decide)
  constructor
  · obtain ⟨h1, _⟩ := add_specialized_fst c v cid sid e rd hmc
    unfold CompiledCode.specialized_executor
    rw [h1]
    show some (specTarget _ (cid, sid)) = some e
    refine congrArg some ?_
    unfold specTarget
    rw [addSlots_findSpecExec v.specializations cid sid e rd he hne]
    simp [he]
  · intro cd hnone
    unfold CompiledCode.specialized_executor
    rw [hmc]
    show some (specTarget v cd) = _
    refine congrArg some ?_
    unfold specTarget
    rw [findSpecExec_eq_none cd v.specializations hnone]
    by_cases hu : v.unspecialized = Exec.nullE
    · simp [hu]
    · simp [hu]

/-- Witness for C2: register `(7, 1) -> jit 42` on the freshly
internalized `sampleInt`; a `(7, 1)` receiver selects it, and a `(9, 9)`
receiver falls back to the interpreter entry (the unspecialized executor
being null). -/
theorem c2_specialization_dispatch_witness :
    ((sampleInt.add_specialized 7 1 (Exec.jit 42) none).1.specialized_executor (7, 1)
        = some (Exec.jit 42)) ∧
    sampleInt.specialized_executor (9, 9) = some Exec.interpE := by
  have h := c2_specialization_dispatch sampleInt (MachineCode.new sampleCode) 7 1
    (Exec.jit 42) none (by decide) (by decide) (by decide)
  refine ⟨h.1, ?_⟩
  rw [h.2 (9, 9) (by decide)]
  decide

theorem installSpec_append (cid sid : Nat) (e : Exec) (rd : Option Nat) :
    ∀ pre s post, (∀ x ∈ pre, x.class_id ≠ 0 ∧ x.class_id ≠ cid) →
      (s.class_id = 0 ∨ s.class_id = cid) →
      installSpec (pre ++ s :: post) cid sid e rd =
        some (pre ++ (⟨cid, sid, e, rd⟩ : SpecSlot) :: post)
  | [], s, post, _, hs => by simp [installSpec, hs]
  | x :: pre, s, post, hpre, hs => by
    have hx := hpre x (by simp)
    have ih := installSpec_append cid sid e rd pre s post
      (fun y hy => hpre y (by simp [hy])) hs
    have hxn : ¬ (x.class_id = 0 ∨ x.class_id = cid) := by
      intro hh
      cases hh with
      | inl h0 => exact hx.1 h0
      | inr h1 => exact hx.2 h1
    simp [installSpec, hxn, ih]

theorem installSpec_eq_none (cid sid : Nat) (e : Exec) (rd : Option Nat) :
    ∀ slots, (∀ s ∈ slots, s.class_id ≠ 0 ∧ s.class_id ≠ cid) →
      installSpec slots cid sid e rd = none
  | [], _ => rfl
  | x :: rest, h => by
    have hx := h x (by simp)
    have hxn : ¬ (x.class_id = 0 ∨ x.class_id = cid) := by
      intro hh
      cases hh with
      | inl h0 => exact hx.1 h0
      | inr h1 => exact hx.2 h1
    have ih := installSpec_eq_none cid sid e rd rest (fun y hy => h y (by simp [hy]))
    simp [installSpec, hxn, ih]

/-- C6: `add_specialized` installs `(class_id, serial, e, rd)` at the
first slot whose stored class id is 0 or equals the given class id;
when no slot qualifies it overwrites slot 0 and emits the cache-full
warning; with no machine code it logs an error and changes nothing; and
after installation, when no primitive is recorded, the top-level
executor becomes `specialized_executor`. -/
theorem c6_add_specialized (c : CompiledCode) (cid sid : Nat) (e : Exec)
    (rd : Option Nat) :
    (c.machine_code = none →
        c.add_specialized cid sid e rd = (c, some SpecLog.noBackend)) ∧
    (∀ v, c.machine_code = some v →
      (∀ pre s post,
          v.specializations = pre ++ s :: post →
          (∀ x ∈ pre, x.class_id ≠ 0 ∧ x.class_id ≠ cid) →
          (s.class_id = 0 ∨ s.class_id = cid) →
          ∃ v', (c.add_specialized cid sid e rd).1.machine_code = some v' ∧
            v'.specializations = pre ++ (⟨cid, sid, e, rd⟩ : SpecSlot) :: post ∧
            (c.add_specialized cid sid e rd).2 = none) ∧
      ((∀ s ∈ v.specializations, s.class_id ≠ 0 ∧ s.class_id ≠ cid) →
          ∃ v', (c.add_specialized cid sid e rd).1.machine_code = some v' ∧
            v'.specializations = v.specializations.set 0 ⟨cid, sid, e, rd⟩ ∧
            (c.add_specialized cid sid e rd).2 = some SpecLog.cacheFull) ∧
      (c.primitive = none →
          (c.add_specialized cid sid e rd).1.execute = Exec.specializedE)) := by
  constructor
  · intro hmc
    unfold CompiledCode.add_specialized
    rw [hmc]
  · intro v hmc
    obtain ⟨h1, h2⟩ := add_specialized_fst c v cid sid e rd hmc
    refine ⟨?_, ?_, ?_⟩
    · intro pre s post hdec hpre hs
      have hi := installSpec_append cid sid e rd pre s post hpre hs
      have hslots : addSlots v.specializations cid sid e rd =
          (pre ++ (⟨cid, sid, e, rd⟩ : SpecSlot) :: post, false) := by
        unfold addSlots
        rw [hdec, hi]
      refine ⟨{ v with specializations := (addSlots v.specializations cid sid e rd).1, execute_status := ExecuteStatus.eJIT }, ?_, ?_, ?_⟩
      · rw [h1]
      · show (addSlots v.specializations cid sid e rd).1 = _
        rw [hslots]
      · rw [h2, hslots]
        rfl
    · intro hall
      have hi := installSpec_eq_none cid sid e rd v.specializations hall
      have hslots : addSlots v.specializations cid sid e rd =
          (v.specializations.set 0 ⟨cid, sid, e, rd⟩, true) := by
        unfold addSlots
        rw [hi]
      refine ⟨{ v with specializations := (addSlots v.specializations cid sid e rd).1, execute_status := ExecuteStatus.eJIT }, ?_, ?_, ?_⟩
      · rw [h1]
      · show (addSlots v.specializations cid sid e rd).1 = _
        rw [hslots]
      · rw [h2, hslots]
        rfl
    · intro hprim
      rw [h1]
      simp [hprim]

/-- Witness for C6 on the freshly internalized `sampleInt`: installing
`(7, 1)` lands in the first (empty) slot with no warning, and the
executor becomes the specialized dispatcher. -/
theorem c6_add_specialized_witness :
    (∃ v', (sampleInt.add_specialized 7 1 (Exec.jit 2) none).1.machine_code = some v' ∧
        v'.specializations =
          [] ++ (⟨7, 1, Exec.jit 2, none⟩ : SpecSlot) :: List.replicate 7 emptySlot ∧
        (sampleInt.add_specialized 7 1 (Exec.jit 2) none).2 = none) ∧
    (sampleInt.add_specialized 7 1 (Exec.jit 2) none).1.execute = Exec.specializedE := by
  have h := (c6_add_specialized sampleInt 7 1 (Exec.jit 2) none).2
    (MachineCode.new sampleCode) (by decide)
  exact ⟨h.1 [] emptySlot (List.replicate 7 emptySlot) (by decide) (by decide)
    (by decide), h.2.2 rfl⟩

/-!  C4: breakpoint lifecycle. -/

theorem find_map_store (k x : Nat) :
    ∀ l : List (Nat × Nat), l.any (fun p => p.1 == k) = true →
      (l.map (fun p => if p.1 == k then (k, x) else p)).find? (fun p => p.1 == k) =
        some (k, x)
  | [], h => by simp at h
  | p :: rest, h => by
    by_cases hp : (p.1 == k) = true
    · simp only [List.map_cons, if_pos hp]
      exact List.find?_cons_of_pos _ (by simp)
    · have h' : rest.any (fun p => p.1 == k) = true := by
        simpa [List.any_cons, hp] using h
      have ih := find_map_store k x rest h'
      simp only [List.map_cons, if_neg hp]
      rw [List.find?_cons_of_neg _ (by simpa using hp)]
      exact ih

theorem lkFetch_store_self (l : List (Nat × Nat)) (k x : Nat) :
    lkFetch (lkStore l k x) k = some x := by
  unfold lkStore lkFetch
  by_cases h : l.any (fun p => p.1 == k) = true
  · rw [if_pos h, find_map_store k x l h]
    rfl
  · rw [if_neg h]
    rw [List.find?_cons_of_pos _ (by simp)]
    rfl

theorem filter_map_store (k x : Nat) :
    ∀ l : List (Nat × Nat),
      (l.map (fun p => if p.1 == k then (k, x) else p)).filter (fun p => p.1 != k) =
        l.filter (fun p => p.1 != k)
  | [] => rfl
  | p :: rest => by
    have ih := filter_map_store k x rest
    by_cases hp : (p.1 == k) = true
    · have hk : ((k, x).1 != k) = false := by simp
      have hpk : (p.1 != k) = false := by simpa using hp
      simp only [List.map_cons, if_pos hp, List.filter_cons, hk, hpk]
      simpa using ih
    · have hpk : (p.1 != k) = true := by simpa using hp
      simp only [List.map_cons, if_neg hp, List.filter_cons, hpk]
      rw [ih]

theorem lkRemove_store_self (l : List (Nat × Nat)) (k x : Nat) :
    lkRemove (lkStore l k x) k = lkRemove l k := by
  unfold lkStore lkRemove
  by_cases h : l.any (fun p => p.1 == k) = true
  · rw [if_pos h]
    exact filter_map_store k x l
  · rw [if_neg h]
    have hk : ((k, x).1 != k) = false := by simp
    simp [List.filter_cons, hk]

theorem lkFetch_remove_self (l : List (Nat × Nat)) (k : Nat) :
    lkFetch (lkRemove l k) k = none := by
  unfold lkRemove lkFetch
  have hfind : (l.filter (fun p => p.1 != k)).find? (fun p => p.1 == k) = none := by
    rw [List.find?_eq_none]
    intro p hp
    have := (List.mem_filter.mp hp).2
    simpa using this
  rw [hfind]
  rfl

/-- C4: on an internalized code and a valid instruction boundary,
`set_breakpoint(ip, x)` returns the ip, makes `is_breakpoint(ip)` true,
sets `machine_code.debugging` and switches to the debugging interpreter;
a following `clear_breakpoint(ip)` makes `is_breakpoint(ip)` false, and
when the cleared breakpoint was the last one, debugging is cleared and
the interpreter variant reverts to the normal one. -/
theorem c4_breakpoint_lifecycle (c : CompiledCode) (v : MachineCode) (ip bp : Nat)
    (hmc : c.machine_code = some v) (hip : validate_ip v ip = true) :
    (c.set_breakpoint ip bp).1 = BpResult.retIp ip ∧
    (c.set_breakpoint ip bp).2.is_breakpoint ip = BpResult.retBool true ∧
    (∃ v1, (c.set_breakpoint ip bp).2.machine_code = some v1 ∧
        v1.debugging = true ∧ v1.run = InterpVariant.debugging) ∧
    ((c.set_breakpoint ip bp).2.clear_breakpoint ip).2.is_breakpoint ip
        = BpResult.retBool false ∧
    (lkRemove (c.breakpoints.getD []) ip = [] →
      ∃ v2, (((c.set_breakpoint ip bp).2.clear_breakpoint ip).2.machine_code = some v2 ∧
          v2.debugging = false ∧ v2.run = InterpVariant.normal)) := by
  have hset : c.set_breakpoint ip bp =
      (BpResult.retIp ip,
       { c with breakpoints := some (lkStore (c.breakpoints.getD []) ip bp),
                machine_code := some { v with debugging := true,
                                              run := InterpVariant.debugging } }) := by
    unfold CompiledCode.set_breakpoint
    rw [hmc]
    simp [hip]
  rw [hset]
  have hip1 : validate_ip { v with debugging := true, run := InterpVariant.debugging } ip
      = true := hip
  have hip2 : validate_ip { v with debugging := false, run := InterpVariant.normal } ip
      = true := hip
  have hfetch := lkFetch_store_self (c.breakpoints.getD []) ip bp
  have hrem := lkRemove_store_self (c.breakpoints.getD []) ip bp
  refine ⟨rfl, ?_, ⟨_, rfl, rfl, rfl⟩, ?_, ?_⟩
  · unfold CompiledCode.is_breakpoint
    simp only [hip1, if_true]
    rw [hfetch]
    rfl
  · unfold CompiledCode.clear_breakpoint
    simp only [hip1, if_true]
    rw [hrem]
    by_cases hl : (lkRemove (c.breakpoints.getD []) ip).length = 0
    · rw [if_pos hl]
      unfold CompiledCode.is_breakpoint
      simp only [hip2, if_true]
      rw [lkFetch_remove_self]
      rfl
    · rw [if_neg hl]
      unfold CompiledCode.is_breakpoint
      simp only [hip1, if_true]
      rw [lkFetch_remove_self]
      rfl
  · intro hlast
    unfold CompiledCode.clear_breakpoint
    simp only [hip1, if_true]
    rw [hrem]
    have hl : (lkRemove (c.breakpoints.getD []) ip).length = 0 := by
      rw [hlast]
      rfl
    rw [if_pos hl]
    exact ⟨_, rfl, rfl, rfl⟩

/-- Witness for C4 at `sampleInt`, ip 4, user datum 77. -/
theorem c4_breakpoint_lifecycle_witness :
    (sampleInt.set_breakpoint 4 77).2.is_breakpoint 4 = BpResult.retBool true ∧
    ((sampleInt.set_breakpoint 4 77).2.clear_breakpoint 4).2.is_breakpoint 4
        = BpResult.retBool false := by
  have h := c4_breakpoint_lifecycle sampleInt (MachineCode.new sampleCode) 4 77
    (by decide) (by decide)
  exact ⟨h.2.1, h.2.2.2.1⟩

/-!  C9: method-table round trip.  Generic list lemmas first. -/

theorem getD_set_self {α : Type} (d : α) :
    ∀ (l : List α) (i : Nat) (a : α), i < l.length → (l.set i a).getD i d = a
  | [], i, a, h => by simp at h
  | x :: l, 0, a, _ => rfl
  | x :: l, i + 1, a, h =>
    getD_set_self d l i a (by simpa using h)

theorem getD_set_ne {α : Type} (d : α) :
    ∀ (l : List α) (i j : Nat) (a : α), i ≠ j → (l.set i a).getD j d = l.getD j d
  | [], _, _, _, _ => rfl
  | x :: l, 0, 0, a, h => absurd rfl h
  | x :: l, 0, j + 1, a, _ => rfl
  | x :: l, i + 1, 0, a, _ => rfl
  | x :: l, i + 1, j + 1, a, h =>
    getD_set_ne d l i j a (fun hh => h (congrArg Nat.succ hh))

theorem getD_replicate_nil {α : Type} :
    ∀ (nb i : Nat), (List.replicate nb ([] : List α)).getD i [] = []
  | 0, _ => rfl
  | _ + 1, 0 => rfl
  | nb + 1, i + 1 => getD_replicate_nil nb i

theorem flatten_replicate_nil {α : Type} :
    ∀ nb : Nat, (List.replicate nb ([] : List α)).flatten = []
  | 0 => rfl
  | nb + 1 => flatten_replicate_nil nb

theorem getD_mem {α : Type} :
    ∀ (vs : List (List α)) (i : Nat), i < vs.length → vs.getD i [] ∈ vs
  | [], i, h => by simp at h
  | c :: vs, 0, _ => by simp
  | c :: vs, i + 1, h => by
    have := getD_mem vs i (by simpa using h)
    exact List.mem_cons_of_mem c this

theorem sublist_flatten_of_mem {α : Type} :
    ∀ (L : List (List α)) (l : List α), l ∈ L → l.Sublist L.flatten
  | [], l, h => by simp at h
  | c :: L, l, h => by
    rcases List.mem_cons.mp h with h | h
    · subst h
      rw [List.flatten_cons]
      exact List.sublist_append_left l L.flatten
    · have ih := sublist_flatten_of_mem L l h
      rw [List.flatten_cons]
      exact ih.trans (List.sublist_append_right c L.flatten)

theorem mem_flatten_of_mem_getD {α : Type} :
    ∀ (vs : List (List α)) (i : Nat) (b : α), b ∈ vs.getD i [] → b ∈ vs.flatten
  | [], i, b, h => by simp at h
  | c :: vs, 0, b, h => by
    simp only [List.flatten_cons, List.mem_append]
    exact Or.inl h
  | c :: vs, i + 1, b, h => by
    simp only [List.flatten_cons, List.mem_append]
    exact Or.inr (mem_flatten_of_mem_getD vs i b h)

theorem mem_getD_of_mem_flatten {α : Type} :
    ∀ (vs : List (List α)) (b : α), b ∈ vs.flatten →
      ∃ i, i < vs.length ∧ b ∈ vs.getD i []
  | [], b, h => by simp at h
  | c :: vs, b, h => by
    rw [List.flatten_cons] at h
    rcases List.mem_append.mp h with h | h
    · exact ⟨0, by simp, h⟩
    · obtain ⟨i, hi, hb⟩ := mem_getD_of_mem_flatten vs b h
      exact ⟨i + 1, by simpa using hi, hb⟩

theorem flatten_set_cons {α : Type} :
    ∀ (vs : List (List α)) (i : Nat) (b : α), i < vs.length →
      ((vs.set i (b :: vs.getD i [])).flatten).Perm (b :: vs.flatten)
  | [], i, b, h => by simp at h
  | c :: vs, 0, b, _ => by simp
  | c :: vs, i + 1, b, h => by
    have ih := flatten_set_cons vs i b (by simpa using h)
    have h1 : ((c :: vs).set (i + 1) (b :: (c :: vs).getD (i + 1) [])).flatten
        = c ++ (vs.set i (b :: vs.getD i [])).flatten := by simp
    rw [h1, List.flatten_cons]
    exact (ih.append_left c).trans List.perm_middle

theorem mapf_flatten_set {α β : Type} (f : α → β) :
    ∀ (vs : List (List α)) (i : Nat) (c' : List α),
      c'.map f = (vs.getD i []).map f → i < vs.length →
      ((vs.set i c').flatten).map f = (vs.flatten).map f
  | [], i, c', _, h => by simp at h
  | c :: vs, 0, c', hm, _ => by
    simp only [List.set, List.flatten_cons, List.map_append]
    rw [hm]
    rfl
  | c :: vs, i + 1, c', hm, h => by
    have ih := mapf_flatten_set f vs i c' hm (by simpa using h)
    simp only [List.set, List.flatten_cons, List.map_append]
    rw [ih]

theorem getD_of_le_length {α : Type} (d : α) :
    ∀ (l : List α) (i : Nat), l.length ≤ i → l.getD i d = d
  | [], _, _ => rfl
  | x :: l, 0, h => by simp at h
  | x :: l, i + 1, h => getD_of_le_length d l i (by simpa using h)

theorem binInv_all (t : MethodTable) (hWF : t.WF) :
    ∀ i, ∀ b ∈ t.values.getD i [], b.name % t.bins = i := by
  intro i b hb
  by_cases h : i < t.values.length
  · exact hWF.2.2.1 i h b hb
  · rw [getD_of_le_length [] t.values i (Nat.le_of_not_lt h)] at hb
    simp at hb

theorem mem_chain_name (t : MethodTable) (hWF : t.WF) (b : MethodTableBucket)
    (hb : b ∈ t.allBuckets) : b ∈ t.values.getD (b.name % t.bins) [] := by
  obtain ⟨i, hi, hmem⟩ := mem_getD_of_mem_flatten t.values b hb
  have hbin := hWF.2.2.1 i hi b hmem
  rw [hbin]
  exact hmem

theorem lookup_eq_some_of_mem (t : MethodTable) (hWF : t.WF) (b : MethodTableBucket)
    (hb : b ∈ t.allBuckets) : t.lookup b.name = some b := by
  have hchain := mem_chain_name t hWF b hb
  unfold MethodTable.lookup
  cases hf : (t.values.getD (b.name % t.bins) []).find? (fun x => x.name == b.name) with
  | none =>
    rw [List.find?_eq_none] at hf
    exact absurd (by simp) (hf b hchain)
  | some b' =>
    have hb'mem := List.mem_of_find?_eq_some hf
    have hb'name : b'.name = b.name := by simpa using List.find?_some hf
    have hb'all : b' ∈ t.allBuckets := mem_flatten_of_mem_getD _ _ _ hb'mem
    have : b' = b := List.inj_on_of_nodup_map hWF.2.2.2.1 hb'all hb hb'name
    rw [this]

theorem lookup_eq_none_of_not_mem (t : MethodTable) (hWF : t.WF) (n : Nat)
    (hn : n ∉ t.allNames) : t.lookup n = none := by
  unfold MethodTable.lookup
  rw [List.find?_eq_none]
  intro b hb hbeq
  have hname : b.name = n := by simpa using hbeq
  have hball : b ∈ t.allBuckets := mem_flatten_of_mem_getD _ _ _ hb
  exact hn (by rw [← hname]; exact List.mem_map_of_mem _ hball)

theorem any_chain_iff (t : MethodTable) (hWF : t.WF) (n : Nat) :
    (t.values.getD (n % t.bins) []).any (fun b => b.name == n) = true ↔
      n ∈ t.allNames := by
  constructor
  · intro h
    obtain ⟨b, hb, hname⟩ := List.any_eq_true.mp h
    have hbn : b.name = n := by simpa using hname
    have hball := mem_flatten_of_mem_getD _ _ _ hb
    rw [← hbn]
    exact List.mem_map_of_mem _ hball
  · intro h
    obtain ⟨b, hb, hname⟩ := List.mem_map.mp h
    rw [List.any_eq_true]
    have hchain := mem_chain_name t hWF b hb
    rw [hname] at hchain
    exact ⟨b, hchain, by simp [hname]⟩

theorem chain_names_nodup (t : MethodTable) (hWF : t.WF) (i : Nat)
    (hi : i < t.values.length) :
    ((t.values.getD i []).map (fun b => b.name)).Nodup := by
  have hsub : (t.values.getD i []).Sublist t.allBuckets :=
    sublist_flatten_of_mem t.values _ (getD_mem t.values i hi)
  exact List.Nodup.sublist (hsub.map (fun b => b.name)) hWF.2.2.2.1

theorem foldl_insertB_length (nb : Nat) :
    ∀ (l : List MethodTableBucket) (vs : List (List MethodTableBucket)),
      (l.foldl (insertB nb) vs).length = vs.length
  | [], _ => rfl
  | b :: l, vs => by
    rw [List.foldl_cons, foldl_insertB_length nb l]
    simp [insertB]

theorem foldl_insertB_flatten (nb : Nat) (hnb : 0 < nb) :
    ∀ (l : List MethodTableBucket) (vs : List (List MethodTableBucket)),
      vs.length = nb →
      ((l.foldl (insertB nb) vs).flatten).Perm (l ++ vs.flatten)
  | [], vs, _ => by simp
  | b :: l, vs, hlen => by
    have hidx : b.name % nb < vs.length := by
      rw [hlen]
      exact Nat.mod_lt _ hnb
    have h1 : ((insertB nb vs b).flatten).Perm (b :: vs.flatten) :=
      flatten_set_cons vs (b.name % nb) b hidx
    have hlen' : (insertB nb vs b).length = nb := by simp [insertB, hlen]
    have ih := foldl_insertB_flatten nb hnb l (insertB nb vs b) hlen'
    rw [List.foldl_cons]
    exact ih.trans ((h1.append_left l).trans List.perm_middle)

theorem foldl_insertB_binInv (nb : Nat) (hnb : 0 < nb) :
    ∀ (l : List MethodTableBucket) (vs : List (List MethodTableBucket)),
      vs.length = nb →
      (∀ j, ∀ b ∈ vs.getD j [], b.name % nb = j) →
      ∀ j, ∀ b ∈ (l.foldl (insertB nb) vs).getD j [], b.name % nb = j
  | [], _, _, hinv => hinv
  | b :: l, vs, hlen, hinv => by
    have hidx : b.name % nb < vs.length := by
      rw [hlen]
      exact Nat.mod_lt _ hnb
    have hlen' : (insertB nb vs b).length = nb := by simp [insertB, hlen]
    have hinv' : ∀ j, ∀ x ∈ (insertB nb vs b).getD j [], x.name % nb = j := by
      intro j x hx
      by_cases hj : b.name % nb = j
      · rw [← hj] at hx ⊢
        rw [insertB, getD_set_self [] vs (b.name % nb) _ hidx] at hx
        rcases List.mem_cons.mp hx with h | h
        · rw [h]
        · exact hinv (b.name % nb) x h
      · rw [insertB, getD_set_ne [] vs (b.name % nb) j _ hj] at hx
        exact hinv j x hx
    rw [List.foldl_cons]
    exact foldl_insertB_binInv nb hnb l (insertB nb vs b) hlen' hinv'

theorem resize_allBuckets_perm (t : MethodTable) (hbins : 0 < t.bins) :
    (t.resize.allBuckets).Perm t.allBuckets := by
  have h := foldl_insertB_flatten (2 * t.bins) (by omega) t.allBuckets
    (List.replicate (2 * t.bins) []) (by simp)
  rw [flatten_replicate_nil, List.append_nil] at h
  exact h

theorem resize_WF (t : MethodTable) (hWF : t.WF) : t.resize.WF := by
  have hperm := resize_allBuckets_perm t hWF.1
  have hlen : t.resize.values.length = 2 * t.bins := by
    show (rebuild (2 * t.bins) t.allBuckets).length = 2 * t.bins
    unfold rebuild
    rw [foldl_insertB_length]
    simp
  refine ⟨?_, hlen, ?_, ?_, ?_⟩
  · show 0 < 2 * t.bins
    have := hWF.1
    omega
  · intro j _ b hb
    have hinv0 : ∀ j, ∀ x ∈ (List.replicate (2 * t.bins)
        ([] : List MethodTableBucket)).getD j [], x.name % (2 * t.bins) = j := by
      intro j x hx
      rw [getD_replicate_nil] at hx
      simp at hx
    exact foldl_insertB_binInv (2 * t.bins) (by have := hWF.1; omega)
      t.allBuckets _ (by simp) hinv0 j b hb
  · have hmap := hperm.map (fun b => b.name)
    exact (hmap.nodup_iff).mpr hWF.2.2.2.1
  · show t.entries = t.resize.allBuckets.length
    rw [hperm.length_eq]
    exact hWF.2.2.2.2

theorem overwriteChain_map_name (n mid m sc se vi : Nat) :
    ∀ chain : List MethodTableBucket,
      (overwriteChain n mid m sc se vi chain).map (fun b => b.name) =
        chain.map (fun b => b.name)
  | [] => rfl
  | b :: rest => by
    by_cases hb : b.name = n
    · simp only [overwriteChain, if_pos hb, List.map_cons]
      rw [hb]
    · simp only [overwriteChain, if_neg hb, List.map_cons]
      rw [overwriteChain_map_name n mid m sc se vi rest]

theorem overwriteChain_mem (n mid m sc se vi : Nat) :
    ∀ chain : List MethodTableBucket, chain.any (fun b => b.name == n) = true →
      (⟨n, mid, m, sc, se, vi⟩ : MethodTableBucket) ∈
        overwriteChain n mid m sc se vi chain
  | [], h => by simp at h
  | b :: rest, h => by
    by_cases hb : b.name = n
    · simp [overwriteChain, hb]
    · have h' : rest.any (fun x => x.name == n) = true := by
        rcases List.any_eq_true.mp h with ⟨x, hx, hxn⟩
        rcases List.mem_cons.mp hx with hh | hh
        · exact absurd (by rw [← hh]; simpa using hxn) hb
        · exact List.any_eq_true.mpr ⟨x, hh, hxn⟩
      simp only [overwriteChain, if_neg hb]
      exact List.mem_cons_of_mem b (overwriteChain_mem n mid m sc se vi rest h')

theorem overwriteChain_subset (n mid m sc se vi : Nat) :
    ∀ chain : List MethodTableBucket, ∀ x ∈ overwriteChain n mid m sc se vi chain,
      x ∈ chain ∨ x = (⟨n, mid, m, sc, se, vi⟩ : MethodTableBucket)
  | [], x, hx => by simp [overwriteChain] at hx
  | b :: rest, x, hx => by
    by_cases hb : b.name = n
    · simp only [overwriteChain, if_pos hb] at hx
      rcases List.mem_cons.mp hx with h | h
      · exact Or.inr h
      · exact Or.inl (List.mem_cons_of_mem b h)
    · simp only [overwriteChain, if_neg hb] at hx
      rcases List.mem_cons.mp hx with h | h
      · rw [h]
        exact Or.inl (by simp)
      · rcases overwriteChain_subset n mid m sc se vi rest x h with h | h
        · exact Or.inl (List.mem_cons_of_mem b h)
        · exact Or.inr h

theorem removeChain_no_name (n : Nat) :
    ∀ chain : List MethodTableBucket, (chain.map (fun b => b.name)).Nodup →
      ∀ x ∈ removeChain n chain, x.name ≠ n
  | [], _, x, hx => by simp [removeChain] at hx
  | b :: rest, hnd, x, hx => by
    have hnd' : b.name ∉ rest.map (fun b => b.name) ∧
        (rest.map (fun b => b.name)).Nodup := by
      rw [List.map_cons] at hnd
      exact List.nodup_cons.mp hnd
    by_cases hb : b.name = n
    · simp only [removeChain, if_pos hb] at hx
      intro hxn
      exact hnd'.1 (by rw [hb, ← hxn]; exact List.mem_map_of_mem _ hx)
    · simp only [removeChain, if_neg hb] at hx
      rcases List.mem_cons.mp hx with h | h
      · rw [h]
        exact hb
      · exact removeChain_no_name n rest hnd'.2 x h

theorem store_eq_overwrite (t : MethodTable) (n mid m sc se vi : Nat)
    (hany : (t.values.getD (n % t.bins) []).any (fun b => b.name == n) = true) :
    t.store n mid m sc se vi =
      { t with values := t.values.set (n % t.bins) (overwriteChain n mid m sc se vi (t.values.getD (n % t.bins) [])) } := by
  simp only [MethodTable.store]
  rw [if_pos hany]

theorem store_eq_insert (t : MethodTable) (n mid m sc se vi : Nat)
    (hany : ¬ (t.values.getD (n % t.bins) []).any (fun b => b.name == n) = true) :
    t.store n mid m sc se vi =
      (if t.entries + 1 = t.bins then
        MethodTable.resize
          { bins := t.bins
            values := t.values.set (n % t.bins) ((⟨n, mid, m, sc, se, vi⟩ : MethodTableBucket) :: t.values.getD (n % t.bins) [])
            entries := t.entries + 1 }
       else
        { bins := t.bins
          values := t.values.set (n % t.bins) ((⟨n, mid, m, sc, se, vi⟩ : MethodTableBucket) :: t.values.getD (n % t.bins) [])
          entries := t.entries + 1 }) := by
  simp only [MethodTable.store]
  rw [if_neg hany]

theorem store_spec (t : MethodTable) (hWF : t.WF) (n mid m sc se vi : Nat) :
    (t.store n mid m sc se vi).WF ∧
    (t.store n mid m sc se vi).lookup n =
        some (⟨n, mid, m, sc, se, vi⟩ : MethodTableBucket) ∧
    (t.store n mid m sc se vi).allNames.toFinset = insert n t.allNames.toFinset ∧
    (t.store n mid m sc se vi).entries =
        (if n ∈ t.allNames then t.entries else t.entries + 1) := by
  have hi : n % t.bins < t.values.length := by
    rw [hWF.2.1]
    exact Nat.mod_lt _ hWF.1
  by_cases hany : (t.values.getD (n % t.bins) []).any (fun b => b.name == n) = true
  · rw [store_eq_overwrite t n mid m sc se vi hany]
    have hmemN : n ∈ t.allNames := (any_chain_iff t hWF n).mp hany
    have hnames : MethodTable.allNames
        { t with values := t.values.set (n % t.bins) (overwriteChain n mid m sc se vi (t.values.getD (n % t.bins) [])) } =
        t.allNames :=
      mapf_flatten_set _ t.values (n % t.bins) _
        (overwriteChain_map_name n mid m sc se vi _) hi
    have hWF' : MethodTable.WF
        { t with values := t.values.set (n % t.bins) (overwriteChain n mid m sc se vi (t.values.getD (n % t.bins) [])) } := by
      refine ⟨hWF.1, ?_, ?_, ?_, ?_⟩
      · show (t.values.set _ _).length = t.bins
        rw [List.length_set]
        exact hWF.2.1
      · intro j hj b hb
        by_cases hij : n % t.bins = j
        · rw [← hij] at hb ⊢
          rw [getD_set_self [] t.values (n % t.bins) _ hi] at hb
          rcases overwriteChain_subset n mid m sc se vi _ b hb with h | h
          · exact hWF.2.2.1 (n % t.bins) hi b h
          · rw [h]
        · rw [getD_set_ne [] t.values (n % t.bins) j _ hij] at hb
          have hj' : j < t.values.length := by
            simpa [List.length_set] using hj
          exact hWF.2.2.1 j hj' b hb
      · rw [hnames]
        exact hWF.2.2.2.1
      · show t.entries = _
        have h1 := congrArg List.length hnames
        simp only [MethodTable.allNames, List.length_map] at h1
        rw [h1]
        exact hWF.2.2.2.2
    refine ⟨hWF', ?_, ?_, ?_⟩
    · have hmem : (⟨n, mid, m, sc, se, vi⟩ : MethodTableBucket) ∈
          MethodTable.allBuckets
            { t with values := t.values.set (n % t.bins) (overwriteChain n mid m sc se vi (t.values.getD (n % t.bins) [])) } := by
        apply mem_flatten_of_mem_getD _ (n % t.bins)
        show _ ∈ (t.values.set (n % t.bins) _).getD (n % t.bins) []
        rw [getD_set_self [] t.values (n % t.bins) _ hi]
        exact overwriteChain_mem n mid m sc se vi _ hany
      exact lookup_eq_some_of_mem _ hWF' _ hmem
    · rw [hnames]
      exact (Finset.insert_eq_self.mpr (List.mem_toFinset.mpr hmemN)).symm
    · rw [if_pos hmemN]
  · rw [store_eq_insert t n mid m sc se vi hany]
    have hnmem : n ∉ t.allNames := fun h => hany ((any_chain_iff t hWF n).mpr h)
    have hperm : (MethodTable.allBuckets
        { bins := t.bins
          values := t.values.set (n % t.bins) ((⟨n, mid, m, sc, se, vi⟩ : MethodTableBucket) :: t.values.getD (n % t.bins) [])
          entries := t.entries + 1 }).Perm
        ((⟨n, mid, m, sc, se, vi⟩ : MethodTableBucket) :: t.allBuckets) :=
      flatten_set_cons t.values (n % t.bins) _ hi
    have hWF1 : MethodTable.WF
        { bins := t.bins
          values := t.values.set (n % t.bins) ((⟨n, mid, m, sc, se, vi⟩ : MethodTableBucket) :: t.values.getD (n % t.bins) [])
          entries := t.entries + 1 } := by
      refine ⟨hWF.1, ?_, ?_, ?_, ?_⟩
      · show (t.values.set _ _).length = t.bins
        rw [List.length_set]
        exact hWF.2.1
      · intro j hj b hb
        by_cases hij : n % t.bins = j
        · rw [← hij] at hb ⊢
          rw [getD_set_self [] t.values (n % t.bins) _ hi] at hb
          rcases List.mem_cons.mp hb with h | h
          · rw [h]
          · exact hWF.2.2.1 (n % t.bins) hi b h
        · rw [getD_set_ne [] t.values (n % t.bins) j _ hij] at hb
          have hj' : j < t.values.length := by
            simpa [List.length_set] using hj
          exact hWF.2.2.1 j hj' b hb
      · have hmapperm := hperm.map (fun b => b.name)
        refine (hmapperm.nodup_iff).mpr ?_
        rw [List.map_cons]
        exact List.nodup_cons.mpr ⟨hnmem, hWF.2.2.2.1⟩
      · show t.entries + 1 = _
        rw [hperm.length_eq, List.length_cons, hWF.2.2.2.2]
    have main : ∀ t2 : MethodTable, t2.WF →
        (t2.allBuckets.Perm
          ((⟨n, mid, m, sc, se, vi⟩ : MethodTableBucket) :: t.allBuckets)) →
        t2.entries = t.entries + 1 →
        (t2.WF ∧ t2.lookup n = some (⟨n, mid, m, sc, se, vi⟩ : MethodTableBucket) ∧
         t2.allNames.toFinset = insert n t.allNames.toFinset ∧
         t2.entries = if n ∈ t.allNames then t.entries else t.entries + 1) := by
      intro t2 hWF2 hperm2 hent
      refine ⟨hWF2, ?_, ?_, ?_⟩
      · have hmem : (⟨n, mid, m, sc, se, vi⟩ : MethodTableBucket) ∈ t2.allBuckets :=
          (hperm2.mem_iff).mpr (by simp)
        exact lookup_eq_some_of_mem t2 hWF2 _ hmem
      · have hmapperm := hperm2.map (fun b => b.name)
        have htf := List.toFinset_eq_of_perm _ _ hmapperm
        show t2.allNames.toFinset = _
        rw [show t2.allNames = t2.allBuckets.map (fun b => b.name) from rfl, htf,
          List.map_cons, List.toFinset_cons]
        rfl
      · rw [hent, if_neg hnmem]
    by_cases hres : t.entries + 1 = t.bins
    · rw [if_pos hres]
      refine main _ (resize_WF _ hWF1) ?_ rfl
      exact (resize_allBuckets_perm _ hWF1.1).trans hperm
    · rw [if_neg hres]
      exact main _ hWF1 hperm rfl

theorem remove_lookup_none (t : MethodTable) (hWF : t.WF) (n : Nat) :
    ((t.remove n).2).lookup n = none := by
  have hi : n % t.bins < t.values.length := by
    rw [hWF.2.1]
    exact Nat.mod_lt _ hWF.1
  simp only [MethodTable.remove]
  cases hf : (t.values.getD (n % t.bins) []).find? (fun b => b.name == n) with
  | none =>
    show t.lookup n = none
    unfold MethodTable.lookup
    exact hf
  | some b =>
    unfold MethodTable.lookup
    show ((t.values.set (n % t.bins) (removeChain n (t.values.getD (n % t.bins) []))).getD (n % t.bins) []).find? (fun x => x.name == n) = none
    rw [getD_set_self [] t.values (n % t.bins) _ hi]
    rw [List.find?_eq_none]
    intro x hx hxeq
    have hnd := chain_names_nodup t hWF (n % t.bins) hi
    exact removeChain_no_name n _ hnd x hx (by simpa using hxeq)

theorem storeSeq_entries :
    ∀ (args : List (Nat × Nat × Nat × Nat × Nat × Nat)) (t : MethodTable), t.WF →
      (storeSeq t args).entries =
        (t.allNames.toFinset ∪ (args.map (fun a => a.1)).toFinset).card
  | [], t, hWF => by
    simp only [storeSeq, List.foldl_nil, List.map_nil, List.toFinset_nil,
      Finset.union_empty]
    rw [hWF.2.2.2.2]
    rw [show t.allBuckets.length = t.allNames.length from (List.length_map _ _).symm]
    exact (List.toFinset_card_of_nodup hWF.2.2.2.1).symm
  | a :: args, t, hWF => by
    have hs := store_spec t hWF a.1 a.2.1 a.2.2.1 a.2.2.2.1 a.2.2.2.2.1 a.2.2.2.2.2
    have ih := storeSeq_entries args
      (t.store a.1 a.2.1 a.2.2.1 a.2.2.2.1 a.2.2.2.2.1 a.2.2.2.2.2) hs.1
    show (storeSeq (t.store a.1 a.2.1 a.2.2.1 a.2.2.2.1 a.2.2.2.2.1 a.2.2.2.2.2)
      args).entries = _
    rw [ih, hs.2.2.1, List.map_cons, List.toFinset_cons, Finset.insert_union,
      Finset.union_insert]

theorem pow2Ge_pos : ∀ fuel n : Nat, 0 < pow2Ge fuel n
  | 0, _ => Nat.one_pos
  | fuel + 1, n => by
    unfold pow2Ge
    by_cases h : n ≤ 1
    · simp [h]
    · have := pow2Ge_pos fuel ((n + 1) / 2)
      simp only [if_neg h]
      omega

theorem create_WF (sz : Nat) : (MethodTable.create sz).WF := by
  refine ⟨pow2Ge_pos _ _, by simp [MethodTable.create], ?_, ?_, ?_⟩
  · intro j hj b hb
    show b.name % (MethodTable.create sz).bins = j
    have : (MethodTable.create sz).values.getD j [] = [] := getD_replicate_nil _ j
    rw [this] at hb
    simp at hb
  · show ((MethodTable.create sz).allBuckets.map (fun b => b.name)).Nodup
    show ((List.replicate _ ([] : List MethodTableBucket)).flatten.map _).Nodup
    rw [flatten_replicate_nil]
    exact List.nodup_nil
  · show 0 = (MethodTable.create sz).allBuckets.length
    show 0 = ((List.replicate _ ([] : List MethodTableBucket)).flatten).length
    rw [flatten_replicate_nil]
    rfl

theorem create_allNames (sz : Nat) : (MethodTable.create sz).allNames = [] := by
  show ((List.replicate _ ([] : List MethodTableBucket)).flatten.map _) = []
  rw [flatten_replicate_nil]
  rfl

/-- C9: after `store(n, m, ...)` a `lookup(n)` returns a bucket whose
method is `m` (and name `n`); after `remove(n)` a `lookup(n)` returns
absent; and across any sequence of stores (repeated names allowed) on a
fresh table, the final `entries` count equals the number of distinct
names stored. -/
theorem c9_method_table_round_trip (t : MethodTable) (hWF : t.WF)
    (n mid m sc se vi : Nat)
    (args : List (Nat × Nat × Nat × Nat × Nat × Nat)) (sz : Nat) :
    (∃ b, (t.store n mid m sc se vi).lookup n = some b ∧
        b.method = m ∧ b.name = n) ∧
    ((t.remove n).2.lookup n = none) ∧
    ((storeSeq (MethodTable.create sz) args).entries =
      (args.map (fun a => a.1)).toFinset.card) := by
  refine ⟨⟨_, (store_spec t hWF n mid m sc se vi).2.1, rfl, rfl⟩,
    remove_lookup_none t hWF n, ?_⟩
  rw [storeSeq_entries args (MethodTable.create sz) (create_WF sz), create_allNames]
  simp

/-- Witness for C9 on a fresh 16-bin table: store then lookup of name 1
with method 2, remove-then-lookup absence, and a three-store sequence
with a repeated name yielding 2 entries. -/
theorem c9_method_table_round_trip_witness :
    (∃ b, ((MethodTable.create 16).store 1 0 2 0 0 0).lookup 1 = some b ∧
        b.method = 2 ∧ b.name = 1) ∧
    ((((MethodTable.create 16).remove 1).2).lookup 1 = none) ∧
    ((storeSeq (MethodTable.create 16)
        [(1, 0, 2, 0, 0, 0), (1, 0, 3, 0, 0, 0), (2, 0, 4, 0, 0, 0)]).entries =
      ([(1, 0, 2, 0, 0, 0), (1, 0, 3, 0, 0, 0), (2, 0, 4, 0, 0, 0)].map
          (fun a => a.1)).toFinset.card) :=
  c9_method_table_round_trip (MethodTable.create 16) (create_WF 16) 1 0 2 0 0 0
    [(1, 0, 2, 0, 0, 0), (1, 0, 3, 0, 0, 0), (2, 0, 4, 0, 0, 0)] 16

end Rubinius
